import Mathlib

/-!
Verification development for the python_to_moodle analysis/transformation
pipeline.  The Python source is shallowly embedded: dictionaries of the
module analyzer become association lists, Python sets become lists with
insert-if-new semantics, and the recursive dependency walks are given a
structural fuel parameter (a pure definitional artifact; every exported
entry point passes a fuel that the accompanying lemmas show is sufficient,
so the embedded functions compute exactly what the Python recursion does).

Components embedded here:
  * `function_analyzer.py`  — `get_function_dependencies_ordered` (the DFS
    post-order dependency resolver over the module's symbol table);
  * `python_to_moodle.py`   — the dependency-assembly parts of
    `process_function` and `process_class` (class/function support lists);
  * `unittest_analyzer.py`  — `_extract_tested_function_name`,
    `_camel_to_snake` (the two-pass regex), `validate_test_coverage`;
  * `assertion_transformer.py` — the per-statement probe transformation on
    a faithful fragment of the Python AST together with `ast.unparse`
    rendering and the textual `str.replace('self.', '')` qualifier strip.
-/

/-- Association list modelling a Python `Dict[str, ...]` restricted to the
only field the analysed claims use, the per-symbol dependency-name set of
`FunctionInfo.dependencies` (modelled as a list). -/
abbrev Table := List (String × List String)

/-- Python `dict` lookup (`d[k]` / `k in d`) over the association list. -/
def lookupTable (t : Table) (x : String) : Option (List String) :=
  match t with
  | [] => none
  | (k, v) :: rest => if x = k then some v else lookupTable rest x

/-- Keys of the dictionary, as used for `set(module_info.functions.keys())`. -/
def keysOf (t : Table) : List String := t.map Prod.fst

/-- Largest dependency-list length in the table; used to size the fuel of
the embedded recursions. -/
def maxDepsLen (fns : Table) : Nat :=
  fns.foldr (fun kv m => max kv.2.length m) 0

/-- Python `set.add`: append only if not already present (insertion order
stands in for the set's iteration order; no proved property depends on it). -/
def insertNew (s : List String) (x : String) : List String :=
  if x ∈ s then s else s ++ [x]

/-- Python `set.update`. -/
def unionNew (s : List String) (xs : List String) : List String :=
  xs.foldl insertNew s

/-- Python `', '.join(...)` (also used for the text assembled by
`ast.unparse` argument lists). -/
def joinSep (sep : String) : List String → String
  | [] => ""
  | [x] => x
  | x :: y :: rest => x ++ sep ++ joinSep sep (y :: rest)

/-- Inner worker of `get_function_dependencies_ordered`
(`function_analyzer.py`, lines 210–226): the nested `visit` closure,
processing a worklist of names.  State: `V` is the `visited` set, `O` the
`ordered` output list.  A name is skipped when already visited or equal to
the target; the membership test against `available_functions` that Python
performs at both call sites of `visit` is placed in the callee, which is
equivalent because every Python call site filters by it.  `fuel` only
drives the recursion; the lemmas below operate under a sufficient-fuel
hypothesis that the exported entry point satisfies. -/
def visitAll (fns : Table) (u : List String) (target : String) :
    Nat → List String → List String → List String → List String × List String
  | 0, _, V, O => (V, O)
  | _ + 1, [], V, O => (V, O)
  | fuel + 1, f :: rest, V, O =>
    if f ∈ V ∨ f = target ∨ ¬ f ∈ u then
      visitAll fns u target fuel rest V O
    else
      match lookupTable fns f with
      | none => visitAll fns u target fuel rest (f :: V) O
      | some deps =>
        let p := visitAll fns u target fuel deps (f :: V) O
        visitAll fns u target fuel rest p.1 (p.2 ++ [f])

/-- Fuel that the sufficiency lemma shows is enough for `visitAll`. -/
def resolverFuel (fns : Table) (u : List String) (names : List String) : Nat :=
  names.length + u.length * (1 + maxDepsLen fns)

/-- `FunctionAnalyzer.get_function_dependencies_ordered`
(`function_analyzer.py`, lines 187–229): returns the transitive in-universe
function dependencies of `function_name` in post order (callees first);
`[]` when the name is not a known function. -/
def get_function_dependencies_ordered (fns : Table) (function_name : String)
    (available_functions : List String) : List String :=
  match lookupTable fns function_name with
  | none => []
  | some deps =>
    (visitAll fns available_functions function_name
      (resolverFuel fns available_functions deps) deps [] []).2

/-- `ModuleInfo` (`function_analyzer.py`): the two symbol dictionaries,
each name mapped to its dependency-name set. -/
structure ModuleInfo where
  functions : Table
  classes : Table

/-- `extract_dependencies_from_code` (`python_to_moodle.py`, lines
166–199), abstracted over parsing: `calls` is the list of direct-name call
identifiers that the AST walk of the code finds, in order.  Each name goes
to the function set if it is a known function, else to the class set if it
is a known class. -/
def extract_dependencies_from_code (calls : List String)
    (all_functions all_classes : List String) : List String × List String :=
  (unionNew [] (calls.filter (fun c => c ∈ all_functions)),
   unionNew [] (calls.filter (fun c => ¬ c ∈ all_functions ∧ c ∈ all_classes)))

/-- One `class_deps_set.update(module_info.functions[x].dependencies &
all_classes)` step guarded by `x in module_info.functions`. -/
def addClassDepsOf (fns : Table) (allC : List String)
    (cs : List String) (x : String) : List String :=
  match lookupTable fns x with
  | some ddeps => unionNew cs (ddeps.filter (fun d => d ∈ allC))
  | none => cs

/-- Dependency-assembly portion of `process_function` (`python_to_moodle.py`,
lines 219–289): produces `(class_deps, dependencies)` — the class-support
name list and function-support name list for a target function.
`setup_calls` models `test_class.setup_code` as the list of direct-call
names found in it (`none` when there is no setUp).  Returns `none` when the
target is not a known function (Python raises a `KeyError` there). -/
def process_function_support (mi : ModuleInfo) (function_name : String)
    (setup_calls : Option (List String)) : Option (List String × List String) :=
  match lookupTable mi.functions function_name with
  | none => none
  | some targetDeps =>
    let allF := keysOf mi.functions
    let allC := keysOf mi.classes
    let deps0 := get_function_dependencies_ordered mi.functions function_name allF
    let cs0 := unionNew [] (targetDeps.filter (fun d => d ∈ allC))
    let cs1 := deps0.foldl (addClassDepsOf mi.functions allC) cs0
    let st1 :=
      match setup_calls with
      | none => (deps0, cs1)
      | some calls =>
        let sd := extract_dependencies_from_code calls allF allC
        let cs := unionNew cs1 sd.2
        sd.1.foldl (fun st sf =>
          if ¬ sf ∈ st.1 ∧ (lookupTable mi.functions sf).isSome then
            let sub := get_function_dependencies_ordered mi.functions sf allF
            let deps1 := st.1 ++ sub
            let deps2 := if sf ∈ deps1 then deps1 else deps1 ++ [sf]
            (deps2, (sf :: sub).foldl (addClassDepsOf mi.functions allC) st.2)
          else st) (deps0, cs)
    let st2 := st1.2.foldl (fun st cd =>
        match lookupTable mi.classes cd with
        | some cdeps =>
          (cdeps.filter (fun d => d ∈ allF)).foldl (fun st2 fd =>
            if ¬ fd ∈ st2.1 then
              let sub := get_function_dependencies_ordered mi.functions fd allF
              let deps1 := sub.foldl
                (fun ds sd => if sd ∈ ds then ds else ds ++ [sd]) st2.1
              (deps1 ++ [fd], addClassDepsOf mi.functions allC st2.2 fd)
            else st2) st
        | none => st) st1
    some (st2.2, st2.1)

/-- `dependencies_ordered = class_deps + dependencies`
(`python_to_moodle.py`, line 317). -/
def process_function_ordered (mi : ModuleInfo) (function_name : String)
    (setup_calls : Option (List String)) : Option (List String) :=
  (process_function_support mi function_name setup_calls).map
    (fun cd => cd.1 ++ cd.2)

/-- The `resolve_function_deps` closure of `process_class`
(`python_to_moodle.py`, lines 403–423), worklist form.  State is
`(visited_funcs, all_deps_ordered, class_deps_set)`. -/
def pcVisitAll (fns : Table) (allF allC : List String) :
    Nat → List String → List String × List String × List String →
      List String × List String × List String
  | 0, _, st => st
  | _ + 1, [], st => st
  | fuel + 1, f :: rest, st =>
    if f ∈ st.1 ∨ ¬ f ∈ allF then pcVisitAll fns allF allC fuel rest st
    else
      let fdeps := (lookupTable fns f).getD []
      let p := pcVisitAll fns allF allC fuel (fdeps.filter (fun d => d ∈ allF))
        (f :: st.1, st.2.1, st.2.2)
      pcVisitAll fns allF allC fuel rest
        (p.1, p.2.1 ++ [f], unionNew p.2.2 (fdeps.filter (fun d => d ∈ allC)))

/-- Dependency-assembly portion of `process_class` (`python_to_moodle.py`,
lines 378–431): produces `(class_deps, all_deps_ordered)` for a target
class.  Returns `none` when the target is not a known class. -/
def process_class_support (mi : ModuleInfo) (class_name : String) :
    Option (List String × List String) :=
  match lookupTable mi.classes class_name with
  | none => none
  | some cdeps =>
    let allF := keysOf mi.functions
    let allC := keysOf mi.classes
    let direct := cdeps.filter (fun d => d ∈ allF)
    let st := pcVisitAll mi.functions allF allC
      (direct.length + allF.length * (1 + maxDepsLen mi.functions))
      direct ([], [], [])
    let cs2 := cdeps.foldl (fun cs dep =>
        if dep ∈ allC ∧ dep ≠ class_name then insertNew cs dep else cs) st.2.2
    some (cs2.filter (fun c => ¬ c = class_name), st.2.1)

/-- `dependencies_ordered = class_deps + all_deps_ordered`
(`python_to_moodle.py`, line 461). -/
def process_class_ordered (mi : ModuleInfo) (class_name : String) :
    Option (List String) :=
  (process_class_support mi class_name).map (fun cd => cd.1 ++ cd.2)

/-! Specification-side predicates for the resolver's output order. -/

/-- Every in-universe, in-table dependency of `a` occurs in `prev`. -/
def depsBefore (fns : Table) (u : List String) (a : String)
    (prev : List String) : Prop :=
  ∀ deps, lookupTable fns a = some deps →
    ∀ d ∈ deps, d ∈ u → (lookupTable fns d).isSome → d ∈ prev

/-- Read on the reverse of an output list: every element's in-universe,
in-table dependencies occur among the elements appended before it. -/
def RevClosed (fns : Table) (u : List String) : List String → Prop
  | [] => True
  | a :: rest => depsBefore fns u a rest ∧ RevClosed fns u rest

/-- Post-condition package for `visitAll` used by the main invariant
lemma; `R` is the `(visited, ordered)` result. -/
def visitAllPost (fns : Table) (u : List String) (target : String)
    (names V O : List String) (R : List String × List String) : Prop :=
  (∀ x ∈ V, x ∈ R.1) ∧
  (∃ t, R.2 = O ++ t) ∧
  RevClosed fns u R.2.reverse ∧
  R.2.Nodup ∧
  (∀ x ∈ R.1, ¬ x ∈ R.2 → (lookupTable fns x).isSome → x ∈ V ∧ ¬ x ∈ O) ∧
  (∀ x ∈ V, ¬ x ∈ O → ¬ x ∈ R.2) ∧
  (∀ x ∈ R.2, x ∈ R.1) ∧
  (∀ x ∈ R.2, x ∈ u ∧ (lookupTable fns x).isSome) ∧
  (∀ n ∈ names, n ∈ u → n = target ∨ n ∈ R.1) ∧
  ¬ target ∈ R.1

/-! Embedding of `unittest_analyzer.py`. -/

def isUpperAZ (c : Char) : Bool := 'A' ≤ c && c ≤ 'Z'
def isLowerAZ (c : Char) : Bool := 'a' ≤ c && c ≤ 'z'
def isDigit09 (c : Char) : Bool := '0' ≤ c && c ≤ '9'

/-- ASCII `str.lower()` on one character. -/
def toLowerAZ (c : Char) : Char :=
  if isUpperAZ c then Char.ofNat (c.toNat + 32) else c

/-- First pass of `_camel_to_snake`: Python
`re.sub('(.)([A-Z][a-z]+)', r'\1_\2', name)` — the leftmost,
non-overlapping scan; `(.)` does not match a newline; the greedy `[a-z]+`
consumes the whole lowercase run, and scanning resumes after it.  `fuel`
is structural bookkeeping; any value above the list length is exact. -/
def camelSub1 : Nat → List Char → List Char
  | 0, l => l
  | _ + 1, [] => []
  | fuel + 1, c1 :: rest =>
    match rest with
    | c2 :: c3 :: _ =>
      if c1 ≠ '\n' && isUpperAZ c2 && isLowerAZ c3 then
        c1 :: '_' :: c2 :: (rest.tail.takeWhile isLowerAZ)
          ++ camelSub1 fuel (rest.tail.dropWhile isLowerAZ)
      else c1 :: camelSub1 fuel rest
    | _ => c1 :: camelSub1 fuel rest

/-- Second pass: Python `re.sub('([a-z0-9])([A-Z])', r'\1_\2', s1)`. -/
def camelSub2 : Nat → List Char → List Char
  | 0, l => l
  | _ + 1, [] => []
  | fuel + 1, c1 :: rest =>
    match rest with
    | c2 :: rest2 =>
      if (isLowerAZ c1 || isDigit09 c1) && isUpperAZ c2 then
        c1 :: '_' :: c2 :: camelSub2 fuel rest2
      else c1 :: camelSub2 fuel rest
    | [] => [c1]

/-- `UnittestAnalyzer._camel_to_snake` (`unittest_analyzer.py`,
lines 170–183). -/
def camel_to_snake (name : String) : String :=
  let l1 := camelSub1 (name.data.length + 1) name.data
  let l2 := camelSub2 (l1.length + 1) l1
  String.mk (l2.map toLowerAZ)

/-- `UnittestAnalyzer._extract_tested_function_name`
(`unittest_analyzer.py`, lines 147–168): strip the `Test` prefix, strip
one following `_` if present, convert to snake case; `none` when the class
name does not start with `Test`. -/
def extract_tested_function_name (class_name : String) : Option String :=
  match class_name.data with
  | 'T' :: 'e' :: 's' :: 't' :: rest =>
    let function_part := match rest with
      | '_' :: rest2 => rest2
      | _ => rest
    some (camel_to_snake (String.mk function_part))
  | _ => none

/-- Missing-coverage scan of `validate_test_coverage`
(`unittest_analyzer.py`, lines 261–265): target names with no test group,
in input order. -/
def missing_tests (functions : List String) (test_keys : List String) :
    List String :=
  functions.filter (fun f => ¬ f ∈ test_keys)

/-- Error text assembled at `unittest_analyzer.py`, lines 268–271. -/
def coverage_error_msg (missing : List String) : String :=
  "Fonctions sans classe de test: " ++ joinSep ", " missing ++
    "\nChaque fonction doit avoir une classe Test\x7bNomFonction\x7d"

/-- `validate_test_coverage` (`unittest_analyzer.py`, lines 247–276);
the raised `ValueError` is modelled as `Except.error` carrying the
message. `test_keys` are the keys of the analyzed test-class mapping. -/
def validate_test_coverage (functions : List String)
    (test_keys : List String) : Except String Bool :=
  let missing := missing_tests functions test_keys
  if missing = [] then Except.ok true
  else Except.error (coverage_error_msg missing)

/-! Embedding of `assertion_transformer.py`: the Python AST fragment the
transformer dispatches on, `ast.unparse` rendering for that fragment, and
the statement transformation. -/

/-- `ast.Constant` values occurring in the transformer's scope. -/
inductive PyConst where
  | int (n : Int)
  | str (s : String)
  | bool (b : Bool)
  | none
deriving DecidableEq, Repr

mutual
/-- Python expression fragment: `Name`, `Constant`, `Attribute`, `Call`,
`List`, `Dict` (keys and values zipped into pairs). -/
inductive PyExpr where
  | name (id : String)
  | const (c : PyConst)
  | attr (obj : PyExpr) (a : String)
  | call (f : PyExpr) (args : PyExprList)
  | listLit (elts : PyExprList)
  | dictLit (items : PyPairList)
deriving DecidableEq, Repr
inductive PyExprList where
  | nil
  | cons (e : PyExpr) (es : PyExprList)
deriving DecidableEq, Repr
inductive PyPairList where
  | nil
  | cons (k v : PyExpr) (rest : PyPairList)
deriving DecidableEq, Repr
end

mutual
/-- Python statement fragment: expression statements, assignments, and
`with` statements (the three shapes the analysed claims exercise). -/
inductive PyStmt where
  | exprStmt (e : PyExpr)
  | assign (targets : PyExprList) (value : PyExpr)
  | withStmt (items : PyWithItems) (body : PyStmtList)
deriving DecidableEq, Repr
inductive PyStmtList where
  | nil
  | cons (s : PyStmt) (rest : PyStmtList)
deriving DecidableEq, Repr
/-- `withitem` list; `oneAs` carries the `as` variable. -/
inductive PyWithItems where
  | nil
  | one (ctx : PyExpr) (rest : PyWithItems)
  | oneAs (ctx : PyExpr) (v : PyExpr) (rest : PyWithItems)
deriving DecidableEq, Repr
end

/-- `repr` of a constant as `ast.unparse` renders it. -/
def unparseConst : PyConst → String
  | .int n => toString n
  | .str s => "'" ++ s ++ "'"
  | .bool b => if b then "True" else "False"
  | .none => "None"

mutual
/-- `ast.unparse` on the expression fragment. -/
def unparseExpr : PyExpr → String
  | .name i => i
  | .const c => unparseConst c
  | .attr o a => unparseExpr o ++ "." ++ a
  | .call f args => unparseExpr f ++ "(" ++ joinSep ", " (unparseArgs args) ++ ")"
  | .listLit es => "[" ++ joinSep ", " (unparseArgs es) ++ "]"
  | .dictLit its => "\x7b" ++ joinSep ", " (unparsePairs its) ++ "\x7d"
def unparseArgs : PyExprList → List String
  | .nil => []
  | .cons e es => unparseExpr e :: unparseArgs es
def unparsePairs : PyPairList → List String
  | .nil => []
  | .cons k v r => (unparseExpr k ++ ": " ++ unparseExpr v) :: unparsePairs r
end

/-- Indent a rendered block line (and its sub-lines) by four spaces. -/
def indent4 (s : String) : String :=
  joinSep "\n" ((s.splitOn "\n").map (fun l => "    " ++ l))

mutual
/-- `ast.unparse` on the statement fragment. -/
def unparseStmt : PyStmt → String
  | .exprStmt e => unparseExpr e
  | .assign ts v => joinSep " = " (unparseArgs ts) ++ " = " ++ unparseExpr v
  | .withStmt items body =>
    "with " ++ joinSep ", " (unparseItems items) ++ ":\n" ++
      joinSep "\n" (unparseBlock body)
def unparseBlock : PyStmtList → List String
  | .nil => []
  | .cons s r => indent4 (unparseStmt s) :: unparseBlock r
def unparseItems : PyWithItems → List String
  | .nil => []
  | .one c r => unparseExpr c :: unparseItems r
  | .oneAs c v r => (unparseExpr c ++ " as " ++ unparseExpr v) :: unparseItems r
end

/-- The textual qualifier strip `code.replace('self.', '')`: plain
leftmost non-overlapping removal of the five-character sequence, exactly
Python `str.replace`. -/
def stripSelfChars : List Char → List Char
  | 's' :: 'e' :: 'l' :: 'f' :: '.' :: rest => stripSelfChars rest
  | c :: rest => c :: stripSelfChars rest
  | [] => []

/-- String form of the qualifier strip. -/
def replaceSelfDot (s : String) : String := String.mk (stripSelfChars s.data)

/-- `str(value)` as used by `_extract_value` on an `ast.Constant`. -/
def pyConstStr : PyConst → String
  | .int n => toString n
  | .str s => s
  | .bool b => if b then "True" else "False"
  | .none => "None"

mutual
/-- `AssertionTransformer._extract_value` (`assertion_transformer.py`,
lines 324–346): constants via `str`, lists and dicts recursively with the
bracket/brace syntax reproduced, anything else via qualifier-stripped
`ast.unparse`. -/
def extract_value : PyExpr → String
  | .const c => pyConstStr c
  | .listLit es => "[" ++ joinSep ", " (extractList es) ++ "]"
  | .dictLit its => "\x7b" ++ joinSep ", " (extractPairs its) ++ "\x7d"
  | e => replaceSelfDot (unparseExpr e)
def extractList : PyExprList → List String
  | .nil => []
  | .cons e es => extract_value e :: extractList es
def extractPairs : PyPairList → List String
  | .nil => []
  | .cons k v r => (extract_value k ++ ": " ++ extract_value v) :: extractPairs r
end

/-- `AssertionTransformer._transform_assert_equal`
(`assertion_transformer.py`, lines 218–237).  With fewer than two
arguments the raw (unstripped) call text is returned with no expected
value. -/
def transform_assert_equal (call : PyExpr) : Option String × Option String :=
  match call with
  | .call _ (.cons a (.cons b _)) =>
    (some ("print(" ++ replaceSelfDot (unparseExpr a) ++ ")"),
     some (extract_value b))
  | _ => (some (unparseExpr call), Option.none)

/-- `_transform_assert_true` (lines 239–248). -/
def transform_assert_true (call : PyExpr) : Option String × Option String :=
  match call with
  | .call _ (.cons e _) =>
    (some ("print(" ++ replaceSelfDot (unparseExpr e) ++ ")"), some "True")
  | _ => (some (unparseExpr call), Option.none)

/-- `_transform_assert_false` (lines 250–259). -/
def transform_assert_false (call : PyExpr) : Option String × Option String :=
  match call with
  | .call _ (.cons e _) =>
    (some ("print(" ++ replaceSelfDot (unparseExpr e) ++ ")"), some "False")
  | _ => (some (unparseExpr call), Option.none)

/-- `_transform_assert_in` (lines 261–273). -/
def transform_assert_in (call : PyExpr) : Option String × Option String :=
  match call with
  | .call _ (.cons item (.cons container _)) =>
    (some ("print(" ++ replaceSelfDot (unparseExpr item) ++ " in " ++
      replaceSelfDot (unparseExpr container) ++ ")"), some "True")
  | _ => (some (unparseExpr call), Option.none)

/-- Flatten the embedded statement list. -/
def stmtsToList : PyStmtList → List PyStmt
  | .nil => []
  | .cons s r => s :: stmtsToList r

/-- `_transform_assert_raises` (`assertion_transformer.py`, lines
301–317): the guarded probe block; the scoped body is qualifier-stripped
and joined with the try indentation, `print("KO")` follows it inside the
`try`, and the handler for the named exception prints `"OK"`. -/
def transform_assert_raises (call : PyExpr) (body : PyStmtList) :
    Option String × Option String :=
  match call with
  | .call _ (.cons e _) =>
    (some ("try:\n    " ++
      joinSep "\n    "
        ((stmtsToList body).map (fun s => replaceSelfDot (unparseStmt s))) ++
      "\n    print(\"KO\")\nexcept " ++ unparseExpr e ++
      ":\n    print(\"OK\")"), some "OK")
  | _ => (some (unparseExpr call), Option.none)

/-- Context-expression test of `_transform_with` (lines 291–294). -/
def isRaisesCall : PyExpr → Bool
  | .call (.attr _ m) _ => m == "assertRaises"
  | _ => false

/-- The `for item in with_stmt.items` scan of `_transform_with`: first
context expression that is an `assertRaises` attribute call. -/
def findAssertRaises : PyWithItems → Option PyExpr
  | .nil => Option.none
  | .one c r => if isRaisesCall c then some c else findAssertRaises r
  | .oneAs c _ r => if isRaisesCall c then some c else findAssertRaises r

/-- `_transform_expr` (`assertion_transformer.py`, lines 187–216):
dispatch on the attribute name of a method call, otherwise pass the
qualifier-stripped source through with no expected value. -/
def transform_expr (e : PyExpr) : Option String × Option String :=
  match e with
  | .call (.attr o m) args =>
    if m = "assertEqual" then transform_assert_equal (.call (.attr o m) args)
    else if m = "assertTrue" then transform_assert_true (.call (.attr o m) args)
    else if m = "assertFalse" then transform_assert_false (.call (.attr o m) args)
    else if m = "assertIn" then transform_assert_in (.call (.attr o m) args)
    else (some (replaceSelfDot (unparseExpr (.call (.attr o m) args))), Option.none)
  | _ => (some (replaceSelfDot (unparseExpr e)), Option.none)

/-- `_transform_with` (lines 275–299). -/
def transform_with (items : PyWithItems) (body : PyStmtList) :
    Option String × Option String :=
  match findAssertRaises items with
  | some c => transform_assert_raises c body
  | Option.none =>
    (some (replaceSelfDot (unparseStmt (.withStmt items body))), Option.none)

/-- `_transform_statement` (`assertion_transformer.py`, lines 140–185) on
the embedded fragment: expressions dispatch to `_transform_expr`,
assignments pass through with the textual qualifier strip, `with`
statements go to `_transform_with`. -/
def transform_statement : PyStmt → Option String × Option String
  | .exprStmt e => transform_expr e
  | .assign ts v =>
    (some (replaceSelfDot (unparseStmt (.assign ts v))), Option.none)
  | .withStmt items body => transform_with items body

/-- `_extract_setup_body` (`assertion_transformer.py`, lines 112–138),
abstracted over parsing: given the body of the located `setUp` function,
drop bare-constant (docstring) statements and render each remaining
statement with the textual qualifier strip. -/
def extract_setup_body_lines (body : PyStmtList) : List String :=
  (stmtsToList body).foldr (fun s acc =>
    match s with
    | .exprStmt (.const _) => acc
    | _ => replaceSelfDot (unparseStmt s) :: acc) []

/-! Helper lemmas. -/

theorem lookupTable_isSome_keys (t : Table) (x : String) :
    (lookupTable t x).isSome ↔ x ∈ keysOf t := by
  induction t with
  | nil => simp [lookupTable, keysOf]
  | cons kv rest ih =>
    obtain ⟨k, v⟩ := kv
    by_cases h : x = k
    · subst h; simp [lookupTable, keysOf]
    · simp [lookupTable, keysOf, h, ih]

theorem maxDepsLen_bound (fns : Table) (a : String) (deps : List String)
    (h : lookupTable fns a = some deps) : deps.length ≤ maxDepsLen fns := by
  induction fns with
  | nil => simp [lookupTable] at h
  | cons kv rest ih =>
    obtain ⟨k, v⟩ := kv
    by_cases hk : a = k
    · subst hk
      simp [lookupTable] at h
      subst h
      simp [maxDepsLen]
    · simp [lookupTable, hk] at h
      have := ih h
      simp [maxDepsLen] at this ⊢
      omega

theorem joinSep_mem_parts (sep : String) (l : List String) (x : String)
    (hx : x ∈ l) : ∃ s1 s2, joinSep sep l = s1 ++ x ++ s2 := by
  induction l with
  | nil => simp at hx
  | cons a rest ih =>
    cases rest with
    | nil =>
      have : x = a := by simpa using hx
      subst this
      refine ⟨"", "", ?_⟩
      simp [joinSep]
    | cons b r =>
      rcases List.mem_cons.mp hx with h | h
      · subst h
        exact ⟨"", sep ++ joinSep sep (b :: r), by simp [joinSep, String.append_assoc]⟩
      · obtain ⟨s1, s2, hs⟩ := ih h
        exact ⟨a ++ sep ++ s1, s2, by simp [joinSep, hs, String.append_assoc]⟩

theorem filter_notMem_le (u : List String) (V W : List String)
    (h : ∀ x ∈ V, x ∈ W) :
    (u.filter (fun x => ¬ x ∈ W)).length ≤ (u.filter (fun x => ¬ x ∈ V)).length := by
  refine List.Sublist.length_le ?_
  refine List.monotone_filter_right u ?_
  intro a ha
  simp only [decide_eq_true_eq] at ha ⊢
  exact fun hv => ha (h a hv)

theorem filter_notMem_lt (u : List String) (f : String) (V : List String)
    (hu : f ∈ u) (hV : ¬ f ∈ V) :
    (u.filter (fun x => ¬ x ∈ (f :: V))).length <
      (u.filter (fun x => ¬ x ∈ V)).length := by
  have hsub : List.Sublist (u.filter (fun x => ¬ x ∈ (f :: V))) (u.filter (fun x => ¬ x ∈ V)) := by
    refine List.monotone_filter_right u ?_
    intro a ha
    simp only [decide_eq_true_eq] at ha ⊢
    exact fun hv => ha (List.mem_cons_of_mem _ hv)
  have hle := hsub.length_le
  rcases Nat.lt_or_ge (u.filter (fun x => ¬ x ∈ (f :: V))).length
      (u.filter (fun x => ¬ x ∈ V)).length with hlt | hge
  · exact hlt
  · exfalso
    have heq : (u.filter (fun x => ¬ x ∈ (f :: V))) = (u.filter (fun x => ¬ x ∈ V)) :=
      hsub.eq_of_length (Nat.le_antisymm hle hge)
    have hf1 : f ∈ u.filter (fun x => ¬ x ∈ V) := by
      simp [List.mem_filter, hu, hV]
    rw [← heq] at hf1
    have := (List.mem_filter.mp hf1).2
    simp at this

theorem mem_insertNew (s : List String) (y x : String)
    (h : x ∈ insertNew s y) : x ∈ s ∨ x = y := by
  unfold insertNew at h
  by_cases hy : y ∈ s
  · simp [hy] at h
    exact Or.inl h
  · simp [hy] at h
    rcases h with h | h
    · exact Or.inl h
    · exact Or.inr h

theorem mem_unionNew (s : List String) (xs : List String) (x : String)
    (h : x ∈ unionNew s xs) : x ∈ s ∨ x ∈ xs := by
  induction xs generalizing s with
  | nil => exact Or.inl h
  | cons a tl ih =>
    have := ih (insertNew s a) (by simpa [unionNew] using h)
    rcases this with h1 | h1
    · rcases mem_insertNew s a x h1 with h2 | h2
      · exact Or.inl h2
      · exact Or.inr (by simp [h2])
    · exact Or.inr (List.mem_cons_of_mem _ h1)

theorem foldl_pres {σ α : Type} (P : σ → Prop) (f : σ → α → σ)
    (h : ∀ s a, P s → P (f s a)) (l : List α) (s : σ) (hs : P s) :
    P (l.foldl f s) := by
  induction l generalizing s with
  | nil => exact hs
  | cons a tl ih => exact ih (f s a) (h s a hs)

theorem revClosed_append_middle (fns : Table) (u : List String) :
    ∀ (X Y : List String) (a : String),
      RevClosed fns u (X ++ a :: Y) → depsBefore fns u a Y := by
  intro X
  induction X with
  | nil => intro Y a h; exact h.1
  | cons b tl ih => intro Y a h; exact ih Y a h.2

theorem visitAll_mem_out (fns : Table) (u : List String) (target : String) :
    ∀ (fuel : Nat) (names V O : List String) (x : String),
      x ∈ (visitAll fns u target fuel names V O).2 →
      x ∈ O ∨ ((lookupTable fns x).isSome ∧ x ∈ u) := by
  intro fuel
  induction fuel with
  | zero =>
    intro names V O x h
    exact Or.inl (by simpa [visitAll] using h)
  | succ fuel ih =>
    intro names V O x h
    match names with
    | [] => exact Or.inl (by simpa [visitAll] using h)
    | f :: rest =>
      simp only [visitAll] at h
      by_cases hskip : f ∈ V ∨ f = target ∨ ¬ f ∈ u
      · rw [if_pos hskip] at h
        exact ih rest V O x h
      · rw [if_neg hskip] at h
        push_neg at hskip
        obtain ⟨hfV, hft, hfu⟩ := hskip
        cases hlook : lookupTable fns f with
        | none =>
          rw [hlook] at h
          exact ih rest (f :: V) O x h
        | some deps =>
          rw [hlook] at h
          rcases ih rest _ _ x h with h1 | h1
          · rcases List.mem_append.mp h1 with h2 | h2
            · rcases ih deps (f :: V) O x h2 with h3 | h3
              · exact Or.inl h3
              · exact Or.inr h3
            · have hx : x = f := by simpa using h2
              subst hx
              exact Or.inr ⟨by simp [hlook], hfu⟩
          · exact Or.inr h1

theorem resolver_mem (fns : Table) (t : String) (u : List String) (x : String)
    (h : x ∈ get_function_dependencies_ordered fns t u) :
    (lookupTable fns x).isSome ∧ x ∈ u := by
  unfold get_function_dependencies_ordered at h
  cases hlook : lookupTable fns t with
  | none => rw [hlook] at h; simp at h
  | some deps =>
    rw [hlook] at h
    rcases visitAll_mem_out fns u t _ deps [] [] x h with h1 | h1
    · simp at h1
    · exact h1

/-! Claim theorems. -/

/-- C4: the tested-symbol-name derivation (strip the fixed `Test` prefix,
optionally strip one following `_`, then run the two-pass CamelCase to
snake_case rule) maps `TestFeetToMeter` to `feet_to_meter`, `Test_Somme`
to `somme`, and `TestHTTPRequest` to `http_request`. -/
theorem extract_tested_function_name_examples :
    extract_tested_function_name "TestFeetToMeter" = some "feet_to_meter" ∧
    extract_tested_function_name "Test_Somme" = some "somme" ∧
    extract_tested_function_name "TestHTTPRequest" = some "http_request" := by
  refine ⟨by decide, by decide, by decide⟩

/-- C9: dependency resolution is idempotent — two calls of
`get_function_dependencies_ordered` with the same function name, the same
symbol table and the same available-function set return identical ordered
lists (the embedded resolver is a pure function of these three inputs). -/
theorem get_function_dependencies_ordered_idempotent
    (fns fns2 : Table) (t t2 : String) (u u2 : List String)
    (hf : fns = fns2) (ht : t = t2) (hu : u = u2) :
    get_function_dependencies_ordered fns t u =
      get_function_dependencies_ordered fns2 t2 u2 := by
  subst hf; subst ht; subst hu; rfl

/-- Witness for C9 at a concrete symbol table. -/
theorem get_function_dependencies_ordered_idempotent_witness :
    get_function_dependencies_ordered [("t", ["g"]), ("g", [])] "t" ["t", "g"] =
      get_function_dependencies_ordered [("t", ["g"]), ("g", [])] "t" ["t", "g"] :=
  get_function_dependencies_ordered_idempotent _ _ _ _ _ _ rfl rfl rfl

/-- C5: an `assertEqual` call with at least two arguments becomes
`print(<argument 1, qualifier-stripped>)` with the expected value produced
by `_extract_value` on argument 2 — constants render as their `str` text,
lists and dicts render recursively with the bracket/brace syntax
reproduced, anything else as qualifier-stripped source; in particular
`self.assertEqual(double(5), 10)` yields `print(double(5))` and `10`. -/
theorem transform_assert_equal_spec :
    (∀ o a b rest,
      transform_expr (.call (.attr o "assertEqual") (.cons a (.cons b rest))) =
        (some ("print(" ++ replaceSelfDot (unparseExpr a) ++ ")"),
         some (extract_value b))) ∧
    (∀ c, extract_value (.const c) = pyConstStr c) ∧
    (∀ es, extract_value (.listLit es) =
      "[" ++ joinSep ", " (extractList es) ++ "]") ∧
    (∀ e es, extractList (.cons e es) = extract_value e :: extractList es) ∧
    (∀ its, extract_value (.dictLit its) =
      "\x7b" ++ joinSep ", " (extractPairs its) ++ "\x7d") ∧
    (∀ k v r, extractPairs (.cons k v r) =
      (extract_value k ++ ": " ++ extract_value v) :: extractPairs r) ∧
    transform_expr (.call (.attr (.name "self") "assertEqual")
      (.cons (.call (.name "double") (.cons (.const (.int 5)) .nil))
        (.cons (.const (.int 10)) .nil))) =
      (some "print(double(5))", some "10") := by
  refine ⟨?_, ?_, ?_, ?_, ?_, ?_, by decide⟩
  · intro o a b rest
    rfl
  · intro c; rfl
  · intro es; rfl
  · intro e es; rfl
  · intro its; rfl
  · intro k v r; rfl

/-- C8: an `assertEqual` call with fewer than two arguments raises no
error — the transform degrades to pass-through, returning the raw
(unstripped) call source as probe code and no expected value. -/
theorem transform_assert_equal_short_args :
    (∀ o, transform_expr (.call (.attr o "assertEqual") .nil) =
      (some (unparseExpr (.call (.attr o "assertEqual") .nil)), Option.none)) ∧
    (∀ o a, transform_expr (.call (.attr o "assertEqual") (.cons a .nil)) =
      (some (unparseExpr (.call (.attr o "assertEqual") (.cons a .nil))),
        Option.none)) ∧
    transform_expr (.call (.attr (.name "self") "assertEqual")
      (.cons (.name "x") .nil)) = (some "self.assertEqual(x)", Option.none) := by
  refine ⟨?_, ?_, by decide⟩
  · intro o; rfl
  · intro o a; rfl

/-- C6: a `with` statement whose context expression is an `assertRaises`
call with at least one argument becomes a `try` block that runs the
qualifier-stripped scoped body, prints `"KO"` as the last statement of the
`try` suite (reached only when no exception propagates), prints `"OK"` in
the handler for the named exception type, and returns expected `"OK"`. -/
theorem transform_with_assert_raises_spec :
    (∀ o e args rest body,
      transform_statement (.withStmt
        (.one (.call (.attr o "assertRaises") (.cons e args)) rest) body) =
        (some ("try:\n    " ++
          joinSep "\n    "
            ((stmtsToList body).map (fun s => replaceSelfDot (unparseStmt s))) ++
          "\n    print(\"KO\")\nexcept " ++ unparseExpr e ++
          ":\n    print(\"OK\")"), some "OK")) ∧
    transform_statement (.withStmt
      (.one (.call (.attr (.name "self") "assertRaises")
        (.cons (.name "ValueError") .nil)) .nil)
      (.cons (.exprStmt (.call (.name "func") .nil)) .nil)) =
      (some "try:\n    func()\n    print(\"KO\")\nexcept ValueError:\n    print(\"OK\")",
       some "OK") := by
  refine ⟨?_, by decide⟩
  intro o e args rest body
  rfl

/-- C10: qualifier stripping in the transformer is the plain textual
substring replacement `code.replace('self.', '')` applied to the rendered
source — assignments and setUp-body statements are rendered then stripped
textually, so occurrences embedded inside longer identifiers
(`myself.x` becomes `myx`) and inside string literals are removed too. -/
theorem transform_statement_textual_strip :
    (∀ ts v, transform_statement (.assign ts v) =
      (some (replaceSelfDot (unparseStmt (.assign ts v))), Option.none)) ∧
    (∀ ts v rest, extract_setup_body_lines (.cons (.assign ts v) rest) =
      replaceSelfDot (unparseStmt (.assign ts v)) ::
        extract_setup_body_lines rest) ∧
    transform_statement (.assign (.cons (.name "y") .nil)
      (.attr (.name "myself") "x")) = (some "y = myx", Option.none) ∧
    transform_statement (.exprStmt (.call (.name "print")
      (.cons (.const (.str "a self. b")) .nil))) =
      (some "print('a  b')", Option.none) := by
  refine ⟨?_, ?_, by decide, by decide⟩
  · intro ts v; rfl
  · intro ts v rest; rfl

/-- C7: coverage validation returns `true` when every symbol has a
matching test group; otherwise it raises an error whose message is built
from exactly the list of symbols with no matching group (each missing name
occurs in the message text); for symbols `a, b` with test groups matching
only `a`, the raised message names exactly `b`. -/
theorem validate_test_coverage_spec :
    (∀ functions test_keys : List String, (∀ f ∈ functions, f ∈ test_keys) →
      validate_test_coverage functions test_keys = Except.ok true) ∧
    (∀ functions test_keys : List String,
      missing_tests functions test_keys ≠ [] →
      validate_test_coverage functions test_keys =
        Except.error (coverage_error_msg (missing_tests functions test_keys))) ∧
    (∀ (functions test_keys : List String) (f : String),
      f ∈ functions → ¬ f ∈ test_keys →
      ∃ s1 s2, validate_test_coverage functions test_keys =
        Except.error (s1 ++ f ++ s2)) ∧
    validate_test_coverage ["a", "b"] ["a"] =
      Except.error
        "Fonctions sans classe de test: b\nChaque fonction doit avoir une classe Test\x7bNomFonction\x7d" := by
  refine ⟨?_, ?_, ?_, by rfl⟩
  · intro functions test_keys h
    have hm : missing_tests functions test_keys = [] := by
      refine List.filter_eq_nil_iff.mpr ?_
      intro a ha
      simp only [decide_eq_true_eq]
      exact fun hna => hna (h a ha)
    simp [validate_test_coverage, hm]
  · intro functions test_keys h
    simp [validate_test_coverage, h]
  · intro functions test_keys f hf hfk
    have hmem : f ∈ missing_tests functions test_keys := by
      simp [missing_tests, List.mem_filter, hf, hfk]
    have hne : missing_tests functions test_keys ≠ [] :=
      List.ne_nil_of_mem hmem
    obtain ⟨s1, s2, hs⟩ :=
      joinSep_mem_parts ", " (missing_tests functions test_keys) f hmem
    refine ⟨"Fonctions sans classe de test: " ++ s1,
      s2 ++ "\nChaque fonction doit avoir une classe Test\x7bNomFonction\x7d", ?_⟩
    simp [validate_test_coverage, hne, coverage_error_msg, hs,
      String.append_assoc]

/-- Witness for C7: validation over symbols `a, b` with only `a` covered
produces an error message containing `b`. -/
theorem validate_test_coverage_spec_witness :
    ∃ s1 s2, validate_test_coverage ["a", "b"] ["a"] =
      Except.error (s1 ++ "b" ++ s2) :=
  validate_test_coverage_spec.2.2.1 ["a", "b"] ["a"] "b" (by decide) (by decide)

/-- C2 (failing input): with the module `t -> [h]`, `h -> []`,
`g -> [h]`, target `t`, and a setUp whose only call is `g`, the setup
branch of `process_function` extends the already-resolved dependency list
`[h]` with `g`'s sub-dependency list `[h]` without a membership check
(`dependencies.extend(sub_deps)`, line 262), so the function-support list
contains `h` twice, contradicting the no-duplicate claim. -/
theorem process_function_support_duplicate :
    process_function_support
      ⟨[("t", ["h"]), ("h", []), ("g", ["h"])], []⟩ "t" (some ["g"]) =
      some ([], ["h", "h", "g"]) ∧
    ¬ (["h", "h", "g"] : List String).Nodup := by
  refine ⟨by decide, by decide⟩

theorem visitAllPost_refl (fns : Table) (u : List String) (target : String)
    (V O : List String)
    (h5 : ¬ target ∈ V) (h6 : ∀ x ∈ O, x ∈ V) (h7 : O.Nodup)
    (h8 : ∀ x ∈ O, x ∈ u ∧ (lookupTable fns x).isSome)
    (h9 : RevClosed fns u O.reverse) :
    visitAllPost fns u target [] V O (V, O) := by
  refine ⟨fun x hx => hx, ⟨[], by simp⟩, h9, h7, ?_, ?_, h6, h8, by simp, h5⟩
  · intro x hx hxo _
    exact ⟨hx, hxo⟩
  · intro x _ hxo
    exact hxo

theorem visitAll_main (fns : Table) (u : List String) (target : String)
    (rank : String → Nat)
    (Hrank : ∀ a deps d, lookupTable fns a = some deps → d ∈ deps → d ∈ u →
      (lookupTable fns d).isSome → rank d < rank a)
    (Htarget : (lookupTable fns target).isSome) :
    ∀ (fuel : Nat) (names V O : List String) (r : Nat),
      names.length +
        (u.filter (fun x => ¬ x ∈ V)).length * (1 + maxDepsLen fns) ≤ fuel →
      (∀ n ∈ names, n ∈ u → (lookupTable fns n).isSome → rank n < r) →
      r ≤ rank target →
      (∀ g ∈ V, ¬ g ∈ O → (lookupTable fns g).isSome → r ≤ rank g) →
      ¬ target ∈ V →
      (∀ x ∈ O, x ∈ V) →
      O.Nodup →
      (∀ x ∈ O, x ∈ u ∧ (lookupTable fns x).isSome) →
      RevClosed fns u O.reverse →
      visitAllPost fns u target names V O (visitAll fns u target fuel names V O) := by
  intro fuel
  induction fuel with
  | zero =>
    intro names V O r hfuel h2 h3 h4 h5 h6 h7 h8 h9
    have hnames : names = [] := by
      cases names with
      | nil => rfl
      | cons a l => exact absurd hfuel (by rw [List.length_cons]; omega)
    subst hnames
    simp only [visitAll]
    exact visitAllPost_refl fns u target V O h5 h6 h7 h8 h9
  | succ fuel ih =>
    intro names V O r hfuel h2 h3 h4 h5 h6 h7 h8 h9
    cases names with
    | nil =>
      simp only [visitAll]
      exact visitAllPost_refl fns u target V O h5 h6 h7 h8 h9
    | cons f rest =>
      by_cases hskip : f ∈ V ∨ f = target ∨ ¬ f ∈ u
      · have hred : visitAll fns u target (fuel + 1) (f :: rest) V O =
            visitAll fns u target fuel rest V O := by
          simp only [visitAll]
          rw [if_pos hskip]
        rw [hred]
        have hfuel2 : rest.length +
            (u.filter (fun x => ¬ x ∈ V)).length * (1 + maxDepsLen fns) ≤ fuel := by
          rw [List.length_cons] at hfuel; omega
        obtain ⟨G1, G2, G3, G4, G5a, G5b, G6, G7, G8, G9⟩ :=
          ih rest V O r hfuel2 (fun n hn => h2 n (List.mem_cons_of_mem _ hn))
            h3 h4 h5 h6 h7 h8 h9
        refine ⟨G1, G2, G3, G4, G5a, G5b, G6, G7, ?_, G9⟩
        intro n hn hnu
        rcases List.mem_cons.mp hn with rfl | hn2
        · rcases hskip with hc | hc | hc
          · exact Or.inr (G1 _ hc)
          · exact Or.inl hc
          · exact absurd hnu hc
        · exact G8 n hn2 hnu
      · have hskip0 := hskip
        push_neg at hskip
        obtain ⟨hfV, hft, hfu⟩ := hskip
        cases hlook : lookupTable fns f with
        | none =>
          have hred : visitAll fns u target (fuel + 1) (f :: rest) V O =
              visitAll fns u target fuel rest (f :: V) O := by
            simp only [visitAll]
            rw [if_neg hskip0, hlook]
          rw [hred]
          have hle : (u.filter (fun x => ¬ x ∈ (f :: V))).length ≤
              (u.filter (fun x => ¬ x ∈ V)).length :=
            filter_notMem_le u V (f :: V) (fun x hx => List.mem_cons_of_mem _ hx)
          have hfuel2 : rest.length +
              (u.filter (fun x => ¬ x ∈ (f :: V))).length * (1 + maxDepsLen fns) ≤
                fuel := by
            have hmul : (u.filter (fun x => ¬ x ∈ (f :: V))).length *
                (1 + maxDepsLen fns) ≤
                (u.filter (fun x => ¬ x ∈ V)).length * (1 + maxDepsLen fns) :=
              mul_le_mul_right' hle _
            rw [List.length_cons] at hfuel
            omega
          have h4b : ∀ g ∈ (f :: V), ¬ g ∈ O → (lookupTable fns g).isSome →
              r ≤ rank g := by
            intro g hg hgO hgs
            rcases List.mem_cons.mp hg with rfl | hg2
            · rw [hlook] at hgs; simp at hgs
            · exact h4 g hg2 hgO hgs
          have h5b : ¬ target ∈ (f :: V) := by
            intro hc
            rcases List.mem_cons.mp hc with hc2 | hc2
            · exact hft hc2.symm
            · exact h5 hc2
          have h6b : ∀ x ∈ O, x ∈ (f :: V) := fun x hx =>
            List.mem_cons_of_mem _ (h6 x hx)
          obtain ⟨G1, G2, G3, G4, G5a, G5b, G6, G7, G8, G9⟩ :=
            ih rest (f :: V) O r hfuel2
              (fun n hn => h2 n (List.mem_cons_of_mem _ hn))
              h3 h4b h5b h6b h7 h8 h9
          refine ⟨fun x hx => G1 x (List.mem_cons_of_mem _ hx), G2, G3, G4,
            ?_, ?_, G6, G7, ?_, G9⟩
          · intro x hx hxo hxs
            obtain ⟨hx1, hx2⟩ := G5a x hx hxo hxs
            rcases List.mem_cons.mp hx1 with rfl | hx3
            · rw [hlook] at hxs; simp at hxs
            · exact ⟨hx3, hx2⟩
          · intro x hx hxo
            exact G5b x (List.mem_cons_of_mem _ hx) hxo
          · intro n hn hnu
            rcases List.mem_cons.mp hn with rfl | hn2
            · exact Or.inr (G1 n (by simp))
            · exact G8 n hn2 hnu
        | some deps =>
          have hred : visitAll fns u target (fuel + 1) (f :: rest) V O =
              visitAll fns u target fuel rest
                (visitAll fns u target fuel deps (f :: V) O).1
                ((visitAll fns u target fuel deps (f :: V) O).2 ++ [f]) := by
            simp only [visitAll]
            rw [if_neg hskip0, hlook]
          rw [hred]
          have hfs : (lookupTable fns f).isSome := by simp [hlook]
          have hrf : rank f < r := h2 f (by simp) hfu hfs
          have hAlt : (u.filter (fun x => ¬ x ∈ (f :: V))).length <
              (u.filter (fun x => ¬ x ∈ V)).length :=
            filter_notMem_lt u f V hfu hfV
          have hdl : deps.length ≤ maxDepsLen fns := maxDepsLen_bound fns f deps hlook
          have hexp : ((u.filter (fun x => ¬ x ∈ (f :: V))).length + 1) *
              (1 + maxDepsLen fns) =
              (u.filter (fun x => ¬ x ∈ (f :: V))).length * (1 + maxDepsLen fns)
                + (1 + maxDepsLen fns) := by ring
          have hfuel_in : deps.length +
              (u.filter (fun x => ¬ x ∈ (f :: V))).length * (1 + maxDepsLen fns) ≤
                fuel := by
            have hmul : ((u.filter (fun x => ¬ x ∈ (f :: V))).length + 1) *
                (1 + maxDepsLen fns) ≤
                (u.filter (fun x => ¬ x ∈ V)).length * (1 + maxDepsLen fns) :=
              mul_le_mul_right' hAlt _
            rw [hexp] at hmul
            rw [List.length_cons] at hfuel
            omega
          have h2_in : ∀ n ∈ deps, n ∈ u → (lookupTable fns n).isSome →
              rank n < rank f := fun n hn hnu hns => Hrank f deps n hlook hn hnu hns
          have h3_in : rank f ≤ rank target := le_of_lt (lt_of_lt_of_le hrf h3)
          have h4_in : ∀ g ∈ (f :: V), ¬ g ∈ O → (lookupTable fns g).isSome →
              rank f ≤ rank g := by
            intro g hg hgO hgs
            rcases List.mem_cons.mp hg with rfl | hg2
            · exact le_refl _
            · exact le_of_lt (lt_of_lt_of_le hrf (h4 g hg2 hgO hgs))
          have h5_in : ¬ target ∈ (f :: V) := by
            intro hc
            rcases List.mem_cons.mp hc with hc2 | hc2
            · exact hft hc2.symm
            · exact h5 hc2
          have h6_in : ∀ x ∈ O, x ∈ (f :: V) := fun x hx =>
            List.mem_cons_of_mem _ (h6 x hx)
          obtain ⟨I1, I2, I3, I4, I5a, I5b, I6, I7, I8, I9⟩ :=
            ih deps (f :: V) O (rank f) hfuel_in h2_in h3_in h4_in h5_in h6_in
              h7 h8 h9
          have hfO : ¬ f ∈ O := fun hc => hfV (h6 f hc)
          have fact1 : ¬ f ∈ (visitAll fns u target fuel deps (f :: V) O).2 :=
            I5b f (by simp) hfO
          have hfP1 : f ∈ (visitAll fns u target fuel deps (f :: V) O).1 :=
            I1 f (by simp)
          have fact2 : ∀ d ∈ deps, d ∈ u → (lookupTable fns d).isSome →
              d ∈ (visitAll fns u target fuel deps (f :: V) O).2 := by
            intro d hd hdu hds
            rcases I8 d hd hdu with rfl | hdV
            · exfalso
              have h1 : rank d < rank f := Hrank f deps d hlook hd hdu Htarget
              omega
            · by_contra hdO
              obtain ⟨hd1, hd2⟩ := I5a d hdV hdO hds
              rcases List.mem_cons.mp hd1 with rfl | hd3
              · have h1 : rank d < rank d := Hrank d deps d hlook hd hdu hds
                omega
              · have ha : r ≤ rank d := h4 d hd3 hd2 hds
                have hb : rank d < rank f := Hrank f deps d hlook hd hdu hds
                omega
          have hVP : ∀ x ∈ V, x ∈ (visitAll fns u target fuel deps (f :: V) O).1 :=
            fun x hx => I1 x (List.mem_cons_of_mem _ hx)
          have hfuel2 : rest.length +
              (u.filter (fun x =>
                ¬ x ∈ (visitAll fns u target fuel deps (f :: V) O).1)).length *
                (1 + maxDepsLen fns) ≤ fuel := by
            have hle2 : (u.filter (fun x =>
                ¬ x ∈ (visitAll fns u target fuel deps (f :: V) O).1)).length ≤
                (u.filter (fun x => ¬ x ∈ (f :: V))).length :=
              filter_notMem_le u (f :: V) _ (fun x hx => I1 x hx)
            have hmul : (u.filter (fun x =>
                ¬ x ∈ (visitAll fns u target fuel deps (f :: V) O).1)).length *
                (1 + maxDepsLen fns) ≤
                (u.filter (fun x => ¬ x ∈ (f :: V))).length * (1 + maxDepsLen fns) :=
              mul_le_mul_right' hle2 _
            have hmul2 : ((u.filter (fun x => ¬ x ∈ (f :: V))).length + 1) *
                (1 + maxDepsLen fns) ≤
                (u.filter (fun x => ¬ x ∈ V)).length * (1 + maxDepsLen fns) :=
              mul_le_mul_right' hAlt _
            rw [hexp] at hmul2
            rw [List.length_cons] at hfuel
            omega
          have h4_2 : ∀ g ∈ (visitAll fns u target fuel deps (f :: V) O).1,
              ¬ g ∈ (visitAll fns u target fuel deps (f :: V) O).2 ++ [f] →
              (lookupTable fns g).isSome → r ≤ rank g := by
            intro g hg hgO hgs
            have hgf : g ≠ f := by
              intro hc; subst hc; exact hgO (by simp)
            have hgO2 : ¬ g ∈ (visitAll fns u target fuel deps (f :: V) O).2 :=
              fun hc => hgO (List.mem_append_left _ hc)
            obtain ⟨hg1, hg2⟩ := I5a g hg hgO2 hgs
            rcases List.mem_cons.mp hg1 with rfl | hg3
            · exact absurd rfl hgf
            · exact h4 g hg3 hg2 hgs
          have h5_2 : ¬ target ∈ (visitAll fns u target fuel deps (f :: V) O).1 := I9
          have h6_2 : ∀ x ∈ (visitAll fns u target fuel deps (f :: V) O).2 ++ [f],
              x ∈ (visitAll fns u target fuel deps (f :: V) O).1 := by
            intro x hx
            rcases List.mem_append.mp hx with hx2 | hx2
            · exact I6 x hx2
            · have hxf : x = f := by simpa using hx2
              subst hxf
              exact hfP1
          have h7_2 : ((visitAll fns u target fuel deps (f :: V) O).2 ++ [f]).Nodup := by
            refine List.Nodup.append I4 (List.nodup_singleton f) ?_
            intro x hx hx2
            have hxf : x = f := by simpa using hx2
            subst hxf
            exact fact1 hx
          have h8_2 : ∀ x ∈ (visitAll fns u target fuel deps (f :: V) O).2 ++ [f],
              x ∈ u ∧ (lookupTable fns x).isSome := by
            intro x hx
            rcases List.mem_append.mp hx with hx2 | hx2
            · exact I7 x hx2
            · have hxf : x = f := by simpa using hx2
              subst hxf
              exact ⟨hfu, hfs⟩
          have h9_2 : RevClosed fns u
              (((visitAll fns u target fuel deps (f :: V) O).2 ++ [f]).reverse) := by
            have hrev : ((visitAll fns u target fuel deps (f :: V) O).2 ++ [f]).reverse =
                f :: (visitAll fns u target fuel deps (f :: V) O).2.reverse := by
              simp
            rw [hrev]
            refine ⟨?_, I3⟩
            intro deps2 hdeps2 d hd hdu hds
            rw [hlook] at hdeps2
            have hdeq : deps2 = deps := by
              injection hdeps2 with h; exact h.symm
            subst hdeq
            exact List.mem_reverse.mpr (fact2 d hd hdu hds)
          obtain ⟨S1, S2, S3, S4, S5a, S5b, S6, S7, S8, S9⟩ :=
            ih rest (visitAll fns u target fuel deps (f :: V) O).1
              ((visitAll fns u target fuel deps (f :: V) O).2 ++ [f]) r hfuel2
              (fun n hn => h2 n (List.mem_cons_of_mem _ hn))
              h3 h4_2 h5_2 h6_2 h7_2 h8_2 h9_2
          refine ⟨?_, ?_, S3, S4, ?_, ?_, S6, S7, ?_, S9⟩
          · intro x hx
            exact S1 x (hVP x hx)
          · obtain ⟨t2, ht2⟩ := S2
            obtain ⟨t1, ht1⟩ := I2
            refine ⟨t1 ++ [f] ++ t2, ?_⟩
            rw [ht2, ht1]
            simp
          · intro x hx hxo hxs
            obtain ⟨hx1, hx2⟩ := S5a x hx hxo hxs
            have hx3 : ¬ x ∈ (visitAll fns u target fuel deps (f :: V) O).2 :=
              fun hc => hx2 (List.mem_append_left _ hc)
            obtain ⟨hx4, hx5⟩ := I5a x hx1 hx3 hxs
            rcases List.mem_cons.mp hx4 with rfl | hx6
            · exact absurd (List.mem_append_right _ (by simp)) hx2
            · exact ⟨hx6, hx5⟩
          · intro x hx hxo
            have hx1 : ¬ x ∈ (visitAll fns u target fuel deps (f :: V) O).2 :=
              I5b x (List.mem_cons_of_mem _ hx) hxo
            have hxf : x ≠ f := fun hc => hfV (hc ▸ hx)
            have hx2 : ¬ x ∈ (visitAll fns u target fuel deps (f :: V) O).2 ++ [f] := by
              intro hc
              rcases List.mem_append.mp hc with hc2 | hc2
              · exact hx1 hc2
              · exact hxf (by simpa using hc2)
            exact S5b x (hVP x hx) hx2
          · intro n hn hnu
            rcases List.mem_cons.mp hn with rfl | hn2
            · exact Or.inr (S1 n hfP1)
            · exact S8 n hn2 hnu

/-- C1: for every target symbol and every symbol table whose in-universe
dependency relation is acyclic (witnessed, as usual for a finite graph, by
a rank function that strictly decreases along in-universe, in-table
dependency edges), the ordered list returned by
`get_function_dependencies_ordered` is topologically sound: every element
is preceded by all of its in-universe, in-table dependencies, hence for
every pair `(a, b)` with `a` strictly before `b` in the list, `a`'s
dependency set does not contain `b`; the list also has no duplicates. -/
theorem get_function_dependencies_ordered_topological
    (fns : Table) (target : String) (u : List String) (rank : String → Nat)
    (Hrank : ∀ a deps d, lookupTable fns a = some deps → d ∈ deps → d ∈ u →
      (lookupTable fns d).isSome → rank d < rank a) :
    (∀ O1 a O2 deps,
      get_function_dependencies_ordered fns target u = O1 ++ a :: O2 →
      lookupTable fns a = some deps →
      ∀ d ∈ deps, d ∈ u → (lookupTable fns d).isSome → d ∈ O1) ∧
    (∀ O1 a O2 b deps,
      get_function_dependencies_ordered fns target u = O1 ++ a :: O2 →
      b ∈ O2 → lookupTable fns a = some deps → ¬ b ∈ deps) ∧
    (get_function_dependencies_ordered fns target u).Nodup := by
  cases hlook : lookupTable fns target with
  | none =>
    have hD : get_function_dependencies_ordered fns target u = [] := by
      unfold get_function_dependencies_ordered
      rw [hlook]
    rw [hD]
    refine ⟨?_, ?_, List.nodup_nil⟩
    · intro O1 a O2 deps h
      exact absurd h (by simp)
    · intro O1 a O2 b deps h
      exact absurd h (by simp)
  | some deps0 =>
    have hsome : (lookupTable fns target).isSome := by simp [hlook]
    have hD : get_function_dependencies_ordered fns target u =
        (visitAll fns u target (resolverFuel fns u deps0) deps0 [] []).2 := by
      unfold get_function_dependencies_ordered
      rw [hlook]
    have hfuel : deps0.length +
        (u.filter (fun x => ¬ x ∈ ([] : List String))).length *
          (1 + maxDepsLen fns) ≤ resolverFuel fns u deps0 := by
      unfold resolverFuel
      have h1 : (u.filter (fun x => ¬ x ∈ ([] : List String))).length ≤ u.length :=
        List.length_filter_le _ _
      have h2 := mul_le_mul_right' h1 (1 + maxDepsLen fns)
      omega
    obtain ⟨G1, G2, G3, G4, G5a, G5b, G6, G7, G8, G9⟩ :=
      visitAll_main fns u target rank Hrank hsome
        (resolverFuel fns u deps0) deps0 [] [] (rank target) hfuel
        (fun n hn hnu hns => Hrank target deps0 n hlook hn hnu hns)
        (le_refl _)
        (by intro g hg; simp at hg)
        (by simp)
        (by intro x hx; simp at hx)
        List.nodup_nil
        (by intro x hx; simp at hx)
        trivial
    rw [hD]
    refine ⟨?_, ?_, G4⟩
    · intro O1 a O2 deps h hlookA d hd hdu hds
      have hrev : ((visitAll fns u target (resolverFuel fns u deps0)
          deps0 [] []).2).reverse = O2.reverse ++ a :: O1.reverse := by
        rw [h]; simp
      rw [hrev] at G3
      have hdb := revClosed_append_middle fns u O2.reverse O1.reverse a G3
      exact List.mem_reverse.mp (hdb deps hlookA d hd hdu hds)
    · intro O1 a O2 b deps h hb hlookA hbdeps
      have hbD : b ∈ (visitAll fns u target (resolverFuel fns u deps0)
          deps0 [] []).2 := by
        rw [h]
        exact List.mem_append_right _ (List.mem_cons_of_mem _ hb)
      obtain ⟨hbu, hbs⟩ := G7 b hbD
      have hrev : ((visitAll fns u target (resolverFuel fns u deps0)
          deps0 [] []).2).reverse = O2.reverse ++ a :: O1.reverse := by
        rw [h]; simp
      rw [hrev] at G3
      have hdb := revClosed_append_middle fns u O2.reverse O1.reverse a G3
      have hbO1 : b ∈ O1 :=
        List.mem_reverse.mp (hdb deps hlookA b hbdeps hbu hbs)
      have hnd : (O1 ++ a :: O2).Nodup := h ▸ G4
      exact List.disjoint_of_nodup_append hnd hbO1 (List.mem_cons_of_mem _ hb)

/-- Witness for C1: a concrete acyclic table (`bb` calls `a`), ranked by
name length; the resolved list for `bb` is duplicate-free. -/
theorem get_function_dependencies_ordered_topological_witness :
    (get_function_dependencies_ordered [("bb", ["a"]), ("a", [])] "bb"
      ["bb", "a"]).Nodup :=
  (get_function_dependencies_ordered_topological [("bb", ["a"]), ("a", [])]
    "bb" ["bb", "a"] (fun s => s.length)
    (by
      intro a deps d h hd hdu hds
      by_cases h1 : a = "bb"
      · subst h1
        simp [lookupTable] at h
        subst h
        have : d = "a" := by simpa using hd
        subst this
        decide
      · by_cases h2 : a = "a"
        · subst h2
          simp [lookupTable] at h
          subst h
          simp at hd
        · simp [lookupTable, h1, h2] at h)).2.2

theorem foldl_pres_mem {σ α : Type} (P : σ → Prop) (f : σ → α → σ) (l : List α)
    (h : ∀ s a, a ∈ l → P s → P (f s a)) (s : σ) (hs : P s) :
    P (l.foldl f s) := by
  induction l generalizing s with
  | nil => exact hs
  | cons a tl ih =>
    exact ih (fun s2 b hb hP => h s2 b (List.mem_cons_of_mem _ hb) hP)
      (f s a) (h s a (by simp) hs)

theorem addClassDepsOf_pres (fns : Table) (allC : List String)
    (cs : List String) (x : String) (h : ∀ y ∈ cs, y ∈ allC) :
    ∀ y ∈ addClassDepsOf fns allC cs x, y ∈ allC := by
  intro y hy
  unfold addClassDepsOf at hy
  cases hl : lookupTable fns x with
  | none => rw [hl] at hy; exact h y hy
  | some ddeps =>
    rw [hl] at hy
    rcases mem_unionNew _ _ _ hy with h1 | h1
    · exact h y h1
    · have := List.mem_filter.mp h1
      exact of_decide_eq_true this.2

theorem pcVisitAll_mem (fns : Table) (allF allC : List String) :
    ∀ (fuel : Nat) (names : List String)
      (st : List String × List String × List String),
      (∀ x ∈ (pcVisitAll fns allF allC fuel names st).2.1,
        x ∈ st.2.1 ∨ x ∈ allF) ∧
      (∀ x ∈ (pcVisitAll fns allF allC fuel names st).2.2,
        x ∈ st.2.2 ∨ x ∈ allC) := by
  intro fuel
  induction fuel with
  | zero =>
    intro names st
    simp only [pcVisitAll]
    exact ⟨fun x hx => Or.inl hx, fun x hx => Or.inl hx⟩
  | succ fuel ih =>
    intro names st
    cases names with
    | nil =>
      simp only [pcVisitAll]
      exact ⟨fun x hx => Or.inl hx, fun x hx => Or.inl hx⟩
    | cons f rest =>
      by_cases hskip : f ∈ st.1 ∨ ¬ f ∈ allF
      · have hred : pcVisitAll fns allF allC (fuel + 1) (f :: rest) st =
            pcVisitAll fns allF allC fuel rest st := by
          simp only [pcVisitAll]
          rw [if_pos hskip]
        rw [hred]
        exact ih rest st
      · push_neg at hskip
        obtain ⟨hfV, hfF⟩ := hskip
        have hred : pcVisitAll fns allF allC (fuel + 1) (f :: rest) st =
            pcVisitAll fns allF allC fuel rest
              ((pcVisitAll fns allF allC fuel
                  (((lookupTable fns f).getD []).filter (fun d => d ∈ allF))
                  (f :: st.1, st.2.1, st.2.2)).1,
               (pcVisitAll fns allF allC fuel
                  (((lookupTable fns f).getD []).filter (fun d => d ∈ allF))
                  (f :: st.1, st.2.1, st.2.2)).2.1 ++ [f],
               unionNew (pcVisitAll fns allF allC fuel
                  (((lookupTable fns f).getD []).filter (fun d => d ∈ allF))
                  (f :: st.1, st.2.1, st.2.2)).2.2
                 (((lookupTable fns f).getD []).filter (fun d => d ∈ allC))) := by
          simp only [pcVisitAll]
          rw [if_neg (by push_neg; exact ⟨hfV, hfF⟩)]
        rw [hred]
        obtain ⟨ihO, ihC⟩ := ih rest _
        obtain ⟨inO, inC⟩ := ih (((lookupTable fns f).getD []).filter
          (fun d => d ∈ allF)) (f :: st.1, st.2.1, st.2.2)
        constructor
        · intro x hx
          rcases ihO x hx with h1 | h1
          · rcases List.mem_append.mp h1 with h2 | h2
            · exact inO x h2
            · have : x = f := by simpa using h2
              subst this
              exact Or.inr hfF
          · exact Or.inr h1
        · intro x hx
          rcases ihC x hx with h1 | h1
          · rcases mem_unionNew _ _ _ h1 with h2 | h2
            · exact inC x h2
            · exact Or.inr (of_decide_eq_true (List.mem_filter.mp h2).2)
          · exact Or.inr h1


theorem appendNewFold_parts (mi : ModuleInfo) (sub : List String)
    (hsub : ∀ x ∈ sub, x ∈ keysOf mi.functions) (ds : List String)
    (hds : ∀ x ∈ ds, x ∈ keysOf mi.functions) :
    ∀ x ∈ List.foldl (fun ds sd => if sd ∈ ds then ds else ds ++ [sd]) ds sub,
      x ∈ keysOf mi.functions := by
  refine foldl_pres_mem (fun ds => ∀ x ∈ ds, x ∈ keysOf mi.functions)
    _ sub ?_ ds hds
  intro s a ha hP x hx
  by_cases hmem : a ∈ s
  · rw [if_pos hmem] at hx
    exact hP x hx
  · rw [if_neg hmem] at hx
    rcases List.mem_append.mp hx with h1 | h1
    · exact hP x h1
    · have : x = a := by simpa using h1
      subst this
      exact hsub x ha

theorem classLoop_parts (mi : ModuleInfo) (st : List String × List String)
    (hP : (∀ x ∈ st.1, x ∈ keysOf mi.functions) ∧
      (∀ x ∈ st.2, x ∈ keysOf mi.classes)) :
    (∀ x ∈ (List.foldl (fun st cd =>
        match lookupTable mi.classes cd with
        | some cdeps =>
          List.foldl (fun st2 fd =>
            if fd ∉ st2.1 then
              (List.foldl (fun ds sd => if sd ∈ ds then ds else ds ++ [sd]) st2.1
                  (get_function_dependencies_ordered mi.functions fd
                    (keysOf mi.functions)) ++ [fd],
               addClassDepsOf mi.functions (keysOf mi.classes) st2.2 fd)
            else st2) st
            (List.filter (fun d => decide (d ∈ keysOf mi.functions)) cdeps)
        | none => st) st st.2).1, x ∈ keysOf mi.functions) ∧
    (∀ x ∈ (List.foldl (fun st cd =>
        match lookupTable mi.classes cd with
        | some cdeps =>
          List.foldl (fun st2 fd =>
            if fd ∉ st2.1 then
              (List.foldl (fun ds sd => if sd ∈ ds then ds else ds ++ [sd]) st2.1
                  (get_function_dependencies_ordered mi.functions fd
                    (keysOf mi.functions)) ++ [fd],
               addClassDepsOf mi.functions (keysOf mi.classes) st2.2 fd)
            else st2) st
            (List.filter (fun d => decide (d ∈ keysOf mi.functions)) cdeps)
        | none => st) st st.2).2, x ∈ keysOf mi.classes) := by
  refine foldl_pres_mem (fun st : List String × List String =>
    (∀ x ∈ st.1, x ∈ keysOf mi.functions) ∧
      (∀ x ∈ st.2, x ∈ keysOf mi.classes)) _ st.2 ?_ st hP
  intro s cd _ hs
  cases hl : lookupTable mi.classes cd with
  | none => simpa only [hl] using hs
  | some cdeps =>
    simp only [hl]
    refine foldl_pres_mem (fun st : List String × List String =>
      (∀ x ∈ st.1, x ∈ keysOf mi.functions) ∧
        (∀ x ∈ st.2, x ∈ keysOf mi.classes)) _ _ ?_ s hs
    intro s2 fd hfd hs2
    by_cases hmem : fd ∉ s2.1
    · rw [if_pos hmem]
      constructor
      · intro x hx
        rcases List.mem_append.mp hx with h1 | h1
        · refine appendNewFold_parts mi _ ?_ s2.1 hs2.1 x h1
          intro y hy
          exact (lookupTable_isSome_keys _ _).mp
            (resolver_mem mi.functions fd (keysOf mi.functions) y hy).1
        · have : x = fd := by simpa using h1
          subst this
          exact of_decide_eq_true (List.mem_filter.mp hfd).2
      · exact addClassDepsOf_pres _ _ _ _ hs2.2
    · rw [if_neg hmem]
      exact hs2

theorem process_function_support_parts (mi : ModuleInfo) (fn : String)
    (setup : Option (List String)) (c d : List String)
    (h : process_function_support mi fn setup = some (c, d)) :
    (∀ x ∈ c, x ∈ keysOf mi.classes) ∧ (∀ x ∈ d, x ∈ keysOf mi.functions) := by
  have hdeps0 : ∀ (g : String) (x : String),
      x ∈ get_function_dependencies_ordered mi.functions g (keysOf mi.functions) →
      x ∈ keysOf mi.functions := fun g x hx =>
    (lookupTable_isSome_keys _ _).mp
      (resolver_mem mi.functions g (keysOf mi.functions) x hx).1
  unfold process_function_support at h
  cases hlookT : lookupTable mi.functions fn with
  | none => rw [hlookT] at h; simp at h
  | some targetDeps =>
    rw [hlookT] at h
    have hcs1 : ∀ x ∈ List.foldl (addClassDepsOf mi.functions (keysOf mi.classes))
        (unionNew [] (List.filter (fun d2 => decide (d2 ∈ keysOf mi.classes))
          targetDeps))
        (get_function_dependencies_ordered mi.functions fn (keysOf mi.functions)),
        x ∈ keysOf mi.classes := by
      refine foldl_pres_mem (fun cs => ∀ x ∈ cs, x ∈ keysOf mi.classes)
        _ _ ?_ _ ?_
      · intro s a _ hs
        exact addClassDepsOf_pres _ _ _ _ hs
      · intro x hx
        rcases mem_unionNew _ _ _ hx with h1 | h1
        · simp at h1
        · exact of_decide_eq_true (List.mem_filter.mp h1).2
    cases setup with
    | none =>
      dsimp only at h
      have hcd := Option.some.inj h
      have hc : _ = c := congrArg Prod.fst hcd
      have hd : _ = d := congrArg Prod.snd hcd
      subst hc
      subst hd
      have hbase : (∀ x ∈ (Prod.mk (get_function_dependencies_ordered mi.functions
            fn (keysOf mi.functions))
          (List.foldl (addClassDepsOf mi.functions (keysOf mi.classes))
            (unionNew [] (List.filter (fun d2 => decide (d2 ∈ keysOf mi.classes))
              targetDeps))
            (get_function_dependencies_ordered mi.functions fn
              (keysOf mi.functions)))).1, x ∈ keysOf mi.functions) ∧
          (∀ x ∈ (Prod.mk (get_function_dependencies_ordered mi.functions
            fn (keysOf mi.functions))
          (List.foldl (addClassDepsOf mi.functions (keysOf mi.classes))
            (unionNew [] (List.filter (fun d2 => decide (d2 ∈ keysOf mi.classes))
              targetDeps))
            (get_function_dependencies_ordered mi.functions fn
              (keysOf mi.functions)))).2, x ∈ keysOf mi.classes) :=
        ⟨fun x hx => hdeps0 fn x hx, hcs1⟩
      have hres := classLoop_parts mi _ hbase
      exact ⟨hres.2, hres.1⟩
    | some calls =>
      dsimp only at h
      have hcd := Option.some.inj h
      have hc : _ = c := congrArg Prod.fst hcd
      have hd : _ = d := congrArg Prod.snd hcd
      subst hc
      subst hd
      have hst1 := foldl_pres_mem (fun st : List String × List String =>
          (∀ x ∈ st.1, x ∈ keysOf mi.functions) ∧
            (∀ x ∈ st.2, x ∈ keysOf mi.classes))
        (fun st sf =>
          if sf ∉ st.1 ∧ (lookupTable mi.functions sf).isSome = true then
            (if sf ∈ st.1 ++ get_function_dependencies_ordered mi.functions sf
                (keysOf mi.functions) then
              st.1 ++ get_function_dependencies_ordered mi.functions sf
                (keysOf mi.functions)
            else st.1 ++ get_function_dependencies_ordered mi.functions sf
                (keysOf mi.functions) ++ [sf],
             List.foldl (addClassDepsOf mi.functions (keysOf mi.classes)) st.2
               (sf :: get_function_dependencies_ordered mi.functions sf
                 (keysOf mi.functions)))
          else st)
        (extract_dependencies_from_code calls (keysOf mi.functions)
          (keysOf mi.classes)).1
        ?_
        (Prod.mk (get_function_dependencies_ordered mi.functions fn
            (keysOf mi.functions))
          (unionNew (List.foldl (addClassDepsOf mi.functions (keysOf mi.classes))
            (unionNew [] (List.filter (fun d2 => decide (d2 ∈ keysOf mi.classes))
              targetDeps))
            (get_function_dependencies_ordered mi.functions fn
              (keysOf mi.functions)))
            (extract_dependencies_from_code calls (keysOf mi.functions)
              (keysOf mi.classes)).2))
        ?_
      rotate_left
      · intro s sf _ hs
        dsimp only
        by_cases hcond : sf ∉ s.1 ∧ (lookupTable mi.functions sf).isSome = true
        · simp only [if_pos hcond]
          constructor
          · intro x hx
            by_cases hin : sf ∈ s.1 ++ get_function_dependencies_ordered
                mi.functions sf (keysOf mi.functions)
            · simp only [if_pos hin] at hx
              rcases List.mem_append.mp hx with h1 | h1
              · exact hs.1 x h1
              · exact hdeps0 sf x h1
            · simp only [if_neg hin] at hx
              rcases List.mem_append.mp hx with h1 | h1
              · rcases List.mem_append.mp h1 with h2 | h2
                · exact hs.1 x h2
                · exact hdeps0 sf x h2
              · have : x = sf := by simpa using h1
                subst this
                exact (lookupTable_isSome_keys _ _).mp hcond.2
          · refine foldl_pres_mem (fun cs => ∀ x ∈ cs, x ∈ keysOf mi.classes)
              _ _ ?_ _ hs.2
            intro s2 a _ hs2
            exact addClassDepsOf_pres _ _ _ _ hs2
        · simp only [if_neg hcond]
          exact hs
      · constructor
        · intro x hx
          exact hdeps0 fn x hx
        · intro x hx
          rcases mem_unionNew _ _ _ hx with h1 | h1
          · exact hcs1 x h1
          · unfold extract_dependencies_from_code at h1
            rcases mem_unionNew _ _ _ h1 with h2 | h2
            · simp at h2
            · have h3 := of_decide_eq_true (List.mem_filter.mp h2).2
              exact h3.2
      · have hres := classLoop_parts mi _ hst1
        exact ⟨hres.2, hres.1⟩

theorem process_class_support_parts (mi : ModuleInfo) (cn : String)
    (c d : List String) (h : process_class_support mi cn = some (c, d)) :
    (∀ x ∈ c, x ∈ keysOf mi.classes) ∧ (∀ x ∈ d, x ∈ keysOf mi.functions) := by
  unfold process_class_support at h
  cases hlookT : lookupTable mi.classes cn with
  | none => rw [hlookT] at h; simp at h
  | some cdeps =>
    rw [hlookT] at h
    dsimp only at h
    have hcd := Option.some.inj h
    have hc : _ = c := congrArg Prod.fst hcd
    have hd : _ = d := congrArg Prod.snd hcd
    subst hc
    subst hd
    constructor
    · intro x hx
      have hx2 := (List.mem_filter.mp hx).1
      refine foldl_pres_mem (fun cs => ∀ y ∈ cs, y ∈ keysOf mi.classes)
        (fun cs dep => if dep ∈ keysOf mi.classes ∧ dep ≠ cn
          then insertNew cs dep else cs) cdeps ?_ _ ?_ x hx2
      · intro s a _ hs y hy
        by_cases hcond : a ∈ keysOf mi.classes ∧ a ≠ cn
        · simp only [if_pos hcond] at hy
          rcases mem_insertNew _ _ _ hy with h1 | h1
          · exact hs y h1
          · subst h1
            exact hcond.1
        · simp only [if_neg hcond] at hy
          exact hs y hy
      · intro y hy
        rcases (pcVisitAll_mem mi.functions (keysOf mi.functions)
            (keysOf mi.classes) _ _ _).2 y hy with h1 | h1
        · simp at h1
        · exact h1
    · intro x hx
      rcases (pcVisitAll_mem mi.functions (keysOf mi.functions)
          (keysOf mi.classes) _ _ _).1 x hx with h1 | h1
      · simp at h1
      · exact h1

/-- C3: for every processed target, the assembled ordered support sequence
is the class-name list concatenated in front of the function-name list
(classes first, regardless of cross-references), in both
`process_function` (line 317) and `process_class` (line 461); every name
in the first part is a known class and every name in the second part a
known function. -/
theorem support_ordered_classes_first :
    (∀ (mi : ModuleInfo) (fn : String) (setup : Option (List String))
      (c d : List String), process_function_support mi fn setup = some (c, d) →
      process_function_ordered mi fn setup = some (c ++ d) ∧
      (∀ x ∈ c, x ∈ keysOf mi.classes) ∧
      (∀ x ∈ d, x ∈ keysOf mi.functions)) ∧
    (∀ (mi : ModuleInfo) (cn : String) (c d : List String),
      process_class_support mi cn = some (c, d) →
      process_class_ordered mi cn = some (c ++ d) ∧
      (∀ x ∈ c, x ∈ keysOf mi.classes) ∧
      (∀ x ∈ d, x ∈ keysOf mi.functions)) := by
  constructor
  · intro mi fn setup c d h
    refine ⟨?_, (process_function_support_parts mi fn setup c d h).1,
      (process_function_support_parts mi fn setup c d h).2⟩
    unfold process_function_ordered
    rw [h]
    rfl
  · intro mi cn c d h
    refine ⟨?_, (process_class_support_parts mi cn c d h).1,
      (process_class_support_parts mi cn c d h).2⟩
    unfold process_class_ordered
    rw [h]
    rfl

/-- Witness for C3: a module where function `t` uses function `h` and
class `C`; the assembled order for `t` is the class list `[C]` followed by
the function list `[h]`. -/
theorem support_ordered_classes_first_witness :
    process_function_ordered ⟨[("t", ["h", "C"]), ("h", [])], [("C", ["h"])]⟩
      "t" Option.none = some (["C"] ++ ["h"]) :=
  (support_ordered_classes_first.1
    ⟨[("t", ["h", "C"]), ("h", [])], [("C", ["h"])]⟩
    "t" Option.none ["C"] ["h"] (by decide)).1
